import Mathlib

/-!
A verification development for the reconciliation engine of the `s3deploy`
tool.  Strings from the Go source are modelled as lists of characters
(`Chars`); Go byte strings (in the URL-escaping code) are modelled as lists
of natural numbers below 256.  Each definition mirrors one function of the
Go source, keeping its name where Lean allows; external collaborators
(compiled regular expressions, the storage backend, the filesystem) appear
as predicate- or data-parameters, exactly at their interface boundary.
-/

namespace S3Deploy

/-- Paths and keys: Go `string` values, as lists of characters. -/
abbrev Chars := List Char

/-- `strings.HasPrefix`. -/
def startsWith (s pre : Chars) : Bool := pre.isPrefixOf s

/-- `strings.HasSuffix`. -/
def endsWith (s suf : Chars) : Bool := suf.reverse.isPrefixOf s.reverse

/-- `strings.TrimPrefix`: drop `pre` from the front of `s` when present. -/
def trimLead (s pre : Chars) : Chars :=
  if startsWith s pre then s.drop pre.length else s

/-- `strings.Split(s, sep)` for a one-character separator: the list of
substrings between occurrences of `sep` (always non-empty). -/
def splitOnChar (sep : Char) : Chars → List Chars
  | [] => [[]]
  | c :: cs =>
    let r := splitOnChar sep cs
    if c = sep then [] :: r
    else
      match r with
      | [] => [[c]]
      | h :: t => (c :: h) :: t

/-- `strings.Join(l, sep)`: concatenate with `sep` between elements. -/
def joinWith (sep : Chars) : List Chars → Chars
  | [] => []
  | [x] => x
  | x :: y :: t => x ++ sep ++ joinWith sep (y :: t)

/-- One step of the element stack used by `path.Clean`: empty and `"."`
elements vanish, `".."` pops the previous element (except past the root of
a rooted path, or onto another `".."` of a relative path), and any other
element is pushed.  The stack grows at the head and is reversed at the
end. -/
def cleanStep (rooted : Bool) (stack : List Chars) (e : Chars) : List Chars :=
  if e = [] ∨ e = ['.'] then stack
  else if e = ['.', '.'] then
    if rooted then
      match stack with
      | [] => []
      | _ :: rest => rest
    else
      match stack with
      | [] => [e]
      | top :: rest => if top = ['.', '.'] then e :: top :: rest else rest
  else e :: stack

/-- Go's `path.Clean` (lexical cleaning of slash-separated paths):
collapse multiple slashes, drop `.` elements, resolve `..` elements, and
return `"."` for an empty result. -/
def pathCleanGo (p : Chars) : Chars :=
  if p = [] then ['.']
  else
    let rooted := p.head? = some '/'
    let elems := splitOnChar '/' p
    let stack := elems.foldl (cleanStep rooted) []
    let out := (if rooted then ['/'] else []) ++ joinWith ['/'] stack.reverse
    if out = [] then ['.'] else out

/-- Go's `path.Dir`: everything up to and including the final slash,
cleaned (`"."` when there is no slash). -/
def pathDirGo (p : Chars) : Chars :=
  pathCleanGo ((p.reverse.dropWhile (fun c => ¬ (c = '/'))).reverse)

/-- Go's `path.Join`: join the elements from the first non-empty one with
slashes and clean the result; empty when every element is empty. -/
def pathJoinGo (elems : List Chars) : Chars :=
  match elems.dropWhile (fun e => e = []) with
  | [] => []
  | l => pathCleanGo (joinWith ['/'] l)

/-- The repository's `pathJoin` (`lib`): like `path.Join` but preserving a
trailing slash of the last element. -/
def pathJoin (elems : List Chars) : Chars :=
  if elems = [] then []
  else
    let hadSlash := endsWith (elems.getLastD []) ['/']
    let p := pathJoinGo elems
    if hadSlash then p ++ ['/'] else p

/-- Byte-wise lexicographic order on strings, as used by `sort.Strings`. -/
def lexLe : Chars → Chars → Bool
  | [], _ => true
  | _ :: _, [] => false
  | x :: xs, y :: ys =>
    if x.toNat < y.toNat then true
    else if y.toNat < x.toNat then false
    else lexLe xs ys

/-- Insert into a `lexLe`-sorted list. -/
def insertSorted (x : Chars) : List Chars → List Chars
  | [] => [x]
  | y :: ys => if lexLe x y then x :: y :: ys else y :: insertSorted x ys

/-- `sort.Strings`: sort in increasing byte-wise lexicographic order. -/
def sortStrings (l : List Chars) : List Chars := l.foldr insertSorted []

/-- Helper for `uniqueStrings`, carrying the set of values seen so far. -/
def uniqueStringsAux (seen : List Chars) : List Chars → List Chars
  | [] => []
  | x :: xs =>
    if x ∈ seen then uniqueStringsAux seen xs
    else x :: uniqueStringsAux (x :: seen) xs

/-- The repository's `uniqueStrings` (`lib/cloudfront.go`): keep the first
occurrence of every value, preserving order. -/
def uniqueStrings (s : List Chars) : List Chars := uniqueStringsAux [] s

/-! ## Upload reasons and the change detector (`lib/files.go`, `lib/deployer.go`) -/

/-- `reasonNotFound`. -/
def reasonNotFound : Chars := "not found".data

/-- `reasonForce`. -/
def reasonForce : Chars := "force".data

/-- `reasonSize`. -/
def reasonSize : Chars := "size".data

/-- `reasonETag`. -/
def reasonETag : Chars := "ETag".data

/-- A remote object descriptor (the `file` interface as seen by the
planner): a size and the backend-reported content fingerprint (ETag). -/
structure RFile where
  size : Int
  etag : Chars
  deriving DecidableEq, Repr, Inhabited

/-- A local file descriptor (`osFile`).  `pathUnix` is the cleaned
slash-path the walker tests against `skipLocalFiles`, `relPath` the
path relative to the source root, `keyPath` the key computed for the
store.  The content fingerprint is computed lazily (`etagInit sync.Once`);
the thunk `etagF` models that deferred computation. -/
structure LocalF where
  pathUnix : Chars
  relPath : Chars
  keyPath : Chars
  size : Int
  etagF : Unit → Chars

/-- `osFile.shouldThisReplace` (`lib/files.go`): replace when the sizes
differ (reason `size`), otherwise when the fingerprints differ (reason
`ETag`), otherwise keep (empty reason).  The fingerprint thunk is only
forced in the second test. -/
def shouldThisReplace (f : LocalF) (other : RFile) : Bool × Chars :=
  if ¬ (f.size = other.size) then (true, reasonSize)
  else if ¬ (f.etagF () = other.etag) then (true, reasonETag)
  else (false, [])

/-! ## Routes and configuration (`lib/files.go`, config file in `lib`) -/

/-- A compiled route rule: the compiled regular expression is an external
collaborator (Go's `regexp`), modelled as the match predicate it denotes;
`gzip` and `ignore` are the policy flags of the YAML `route` entry. -/
structure Route where
  matchRE : Chars → Bool
  gzip : Bool
  ignore : Bool

/-- `routes.get`: first route whose pattern matches the path, if any. -/
def routesGet (rs : List Route) (p : Chars) : Option Route :=
  rs.find? (fun r => r.matchRE p)

/-- The parts of the resolved `Config` that the planner consults.  The
compiled `-ignore` patterns and the compiled `-skip-local-files` patterns
are external regular expressions, modelled as the predicates they
denote. -/
structure Config where
  bucketPath : Chars
  force : Bool
  routes : List Route
  ignore : Chars → Bool
  skipLocalFiles : Chars → Bool

/-- The `sub` computed by `Config.shouldIgnoreRemote`: the key with the
bucket-path prefix dropped and one leading slash trimmed. -/
def stripRemote (cfg : Config) (key : Chars) : Chars :=
  trimLead (key.drop cfg.bucketPath.length) ['/']

/-- `Config.shouldIgnoreRemote`: strip the bucket-path prefix (and one
leading slash) from the key, then test the ignore-flagged routes and the
explicit ignore patterns against the stripped key. -/
def shouldIgnoreRemote (cfg : Config) (key : Chars) : Bool :=
  let sub := stripRemote cfg key
  if cfg.routes.any (fun r => r.ignore && r.matchRE sub) then true
  else cfg.ignore sub

/-- The per-file decision chain of `Deployer.walk` (`lib/deployer.go`):
a file is emitted to the planner unless it matchRE `skipLocalFiles`,
matchRE an explicit ignore pattern (`shouldIgnoreLocal`), or its first
matching route carries the ignore flag. -/
def walkEmits (cfg : Config) (f : LocalF) : Bool :=
  if cfg.skipLocalFiles f.pathUnix then false
  else if cfg.ignore f.relPath then false
  else
    match routesGet cfg.routes f.relPath with
    | some r => if r.ignore then false else true
    | none => true

/-- The stream of local files the walker hands to the planner, given the
files found under the source root. -/
def walkFiles (cfg : Config) (entries : List LocalF) : List LocalF :=
  entries.filter (walkEmits cfg)

/-! ## The reconciliation planner (`Deployer.plan`, `lib/deployer.go`) -/

/-- The bucket key of a local file: the key path joined below the
configured bucket path when one is set (`lib/deployer.go`). -/
def bucketKey (cfg : Config) (f : LocalF) : Chars :=
  if ¬ (cfg.bucketPath = []) then pathJoin [cfg.bucketPath, f.keyPath]
  else f.keyPath

/-- The remote inventory: a `map[string]file` snapshot, as an association
list with (in well-formed states) pairwise distinct keys. -/
abbrev Inventory := List (Chars × RFile)

/-- Go map read `m[k]`: the value at the first binding of `k`. -/
def lookupKey : Inventory → Chars → Option RFile
  | [], _ => none
  | (k', v) :: rest, k => if k' = k then some v else lookupKey rest k

/-- Go map `delete(m, k)`: remove the binding of `k` (the first one). -/
def eraseKey : Inventory → Chars → Inventory
  | [], _ => []
  | (k', v) :: rest, k => if k' = k then rest else (k', v) :: eraseKey rest k

/-- The planner's state while draining the local-file stream: the files
enqueued for upload (with their reasons), the skipped-counter, and the
remote inventory map being consumed destructively. -/
structure PlanState where
  uploads : List (Chars × Chars)
  skipped : Nat
  remaining : Inventory
  deriving DecidableEq, Repr

/-- One iteration of the planner loop (`Deployer.plan`): look the file's
bucket key up in the inventory; on a hit, classify by force or by the
change detector and delete the key from the map; on a miss, upload with
reason `not found`.  Uploads record the key path and the reason. -/
def planStepFile (cfg : Config) (st : PlanState) (f : LocalF) : PlanState :=
  let bp := bucketKey cfg f
  match lookupKey st.remaining bp with
  | some remoteFile =>
    let ur : Bool × Chars :=
      if cfg.force then (true, reasonForce) else shouldThisReplace f remoteFile
    let st := { st with remaining := eraseKey st.remaining bp }
    if ur.1 then { st with uploads := st.uploads ++ [(f.keyPath, ur.2)] }
    else { st with skipped := st.skipped + 1 }
  | none => { st with uploads := st.uploads ++ [(f.keyPath, reasonNotFound)] }

/-- The result of `Deployer.plan`: the upload queue, the skip counter, the
leftover inventory and the delete-candidate keys.  (Go iterates the
leftover map in unspecified order; the model uses the inventory's list
order, and every claim about the candidates is order-insensitive.) -/
structure PlanResult where
  uploads : List (Chars × Chars)
  skipped : Nat
  remaining : Inventory
  deletes : List Chars
  deriving DecidableEq, Repr

/-- `Deployer.plan`: drain the local stream against the inventory, then
turn every leftover key that no ignore rule excludes into a
delete-candidate. -/
def plan (cfg : Config) (locals : List LocalF) (remote : Inventory) : PlanResult :=
  let st := locals.foldl (planStepFile cfg) ⟨[], 0, remote⟩
  let deletes :=
    (st.remaining.map Prod.fst).filter (fun k => ! shouldIgnoreRemote cfg k)
  ⟨st.uploads, st.skipped, st.remaining, deletes⟩

/-! ## The deletion batcher (`store.DeleteObjects`, `lib/store.go`) -/

/-- Fuelled form of `chunkStrings`' loop: split off chunks of `size`
elements while the list is non-empty and fuel remains. -/
def chunkAux (size : Nat) : Nat → List Chars → List (List Chars)
  | _, [] => []
  | 0, _ :: _ => []
  | fuel + 1, a :: s => (a :: s).take size :: chunkAux size fuel ((a :: s).drop size)

/-- `chunkStrings`: split a list into consecutive chunks of at most `size`
elements.  (Go's loop does not terminate for `size = 0`; the store only
calls it with `size ≥ 1`, guarded by `maxDelete > 0`.  With `size ≥ 1`
the loop advances by at least one element per chunk, so `s.length` steps
of `chunkAux` always suffice.) -/
def chunkStrings (s : List Chars) (size : Nat) : List (List Chars) :=
  if size = 0 then [] else chunkAux size s.length s

/-- What one run of `store.DeleteObjects` does, on the success path of the
backend: the batches handed to the backend's delete call, the keys
recorded as changed for CDN invalidation (`trackChanged`), and the
amounts added to the `Deleted` and `Stale` counters by the
`withDeleteStats` collector. -/
structure DelRes where
  calls : List (List Chars)
  changed : List Chars
  deletedStat : Int
  staleStat : Int
  deriving DecidableEq, Repr

/-- The batch loop of `store.DeleteObjects`: per iteration, one backend
call, `trackChanged` on the chunk, `deleted += len(chunk)`, then
`statsCollector(deleted, 0)` — note: the *cumulative* count — and, once
`deleted ≥ maxDelete`, `statsCollector(0, len(keys)-deleted)` and stop. -/
def delLoop (total maxDelete : Int) : List (List Chars) → Int → DelRes
  | [], _ => ⟨[], [], 0, 0⟩
  | c :: rest, deleted =>
    let deleted := deleted + (c.length : Int)
    if deleted ≥ maxDelete then
      ⟨[c], c, deleted, total - deleted⟩
    else
      let r := delLoop total maxDelete rest deleted
      ⟨c :: r.calls, c ++ r.changed, deleted + r.deletedStat, r.staleStat⟩

/-- `store.DeleteObjects`: nothing happens for an empty key list or a
non-positive ceiling; otherwise the keys are chunked by
`min(maxDelete, 1000)` and the batch loop runs.  (The backend delegate is
taken to succeed; a delegate error aborts the loop early and is out of
scope of the counting claims.) -/
def DeleteObjects (keys : List Chars) (maxDelete : Int) : DelRes :=
  if keys.length = 0 then ⟨[], [], 0, 0⟩
  else if maxDelete ≤ 0 then ⟨[], [], 0, 0⟩
  else
    let chunkSize := if maxDelete < 1000 then maxDelete.toNat else 1000
    delLoop (keys.length : Int) maxDelete (chunkStrings keys chunkSize) 0

/-! ## The CDN invalidation reducer (`lib/cloudfront.go`) -/

/-- The cleaned, slash-prefixed form every incoming invalidation path is
put into by `normalizeInvalidationPaths`. -/
def cleanSlash (p : Chars) : Chars :=
  let p := pathCleanGo p
  if ¬ (startsWith p ['/'] = true) then '/' :: p else p

/-- The per-path step of `normalizeInvalidationPaths`: clean, force a
leading slash, and collapse a path ending in `index.html` to its parent
directory with a trailing slash. -/
def normalizeOnePath (p : Chars) : Chars :=
  let p := cleanSlash p
  if endsWith p ("index.html".data) then
    let dir := pathDirGo p
    if ¬ (endsWith dir ['/'] = true) then dir ++ ['/'] else dir
  else p

/-- One element of a collapse pass at depth `k`: a path deeper than `k`
is replaced by an ancestor directory plus a `/*` wildcard. -/
def collapseOne (k : Nat) (p : Chars) : Chars :=
  if p.count '/' > k then
    let parts := splitOnChar '/' (trimLead (pathDirGo p) ['/'])
    let parts := if parts.length > 1 then parts.dropLast else parts
    ('/' :: pathJoinGo parts) ++ "/*".data
  else p

/-- The collapse loop of `normalizeInvalidationPaths`: for `k` from the
maximum observed depth down to `1`, collapse and deduplicate, stopping as
soon as the count is within the threshold. -/
def collapseLoop (threshold : Int) : Nat → List Chars → List Chars
  | 0, normalized => normalized
  | k + 1, normalized =>
    let normalized := uniqueStrings (normalized.map (collapseOne (k + 1)))
    if (normalized.length : Int) ≤ threshold then normalized
    else collapseLoop threshold k normalized

/-- `cloudFrontClient.normalizeInvalidationPaths`: force the root to a
leading slash; under force return the single root wildcard; otherwise
normalize every path, deduplicate and sort, collapse while over the
threshold (falling back to the root wildcard when collapsing cannot reach
it), and return the root wildcard alone whenever it appears among the
results. -/
def normalizeInvalidationPaths (root : Chars) (threshold : Int) (force : Bool)
    (paths : List Chars) : List Chars :=
  let root := if ¬ (startsWith root ['/'] = true) then '/' :: root else root
  let matchAll := pathJoinGo [root, ['*']]
  let clearAll := [matchAll]
  if force then clearAll
  else
    let maxlevels := (paths.map (fun p => (cleanSlash p).count '/')).foldl
      (fun a b => if b > a then b else a) 0
    let normalized := paths.map normalizeOnePath
    let normalized := sortStrings (uniqueStrings normalized)
    let normalized :=
      if (normalized.length : Int) > threshold then
        let collapsed := collapseLoop threshold maxlevels normalized
        if (collapsed.length : Int) > threshold then clearAll else collapsed
      else normalized
    if normalized.any (fun pat => pat = matchAll) then clearAll else normalized

/-! ## RFC-1738 path escaping (`lib/url.go`)

The Go code works on the bytes of the string; bytes are modelled as
natural numbers (all below 256 in any real string). -/

/-- `shouldEscape` (`lib/url.go`): ASCII alphanumerics and the special
characters stay; of the reserved characters only `?` is escaped;
everything else is escaped.  Character codes: `$`=36 `-`=45 `_`=95 `.`=46
`+`=43 `!`=33 `*`=42 `(`=40 `)`=41 `,`=44, single quote = 39, and
`/`=47 `?`=63 `:`=58 `@`=64 `=`=61 `&`=38. -/
def shouldEscape (c : Nat) : Bool :=
  if ('A'.toNat ≤ c ∧ c ≤ 'Z'.toNat) ∨ ('a'.toNat ≤ c ∧ c ≤ 'z'.toNat) ∨
      ('0'.toNat ≤ c ∧ c ≤ '9'.toNat) then false
  else if c = '$'.toNat ∨ c = '-'.toNat ∨ c = '_'.toNat ∨ c = '.'.toNat ∨
      c = '+'.toNat ∨ c = '!'.toNat ∨ c = '*'.toNat ∨ c = 39 ∨
      c = '('.toNat ∨ c = ')'.toNat ∨ c = ','.toNat then false
  else if c = '/'.toNat ∨ c = '?'.toNat ∨ c = ':'.toNat ∨ c = '@'.toNat ∨
      c = '='.toNat ∨ c = '&'.toNat then decide (c = '?'.toNat)
  else true

/-- The code bytes of `"0123456789ABCDEF"`, the table indexed by the
escape loop. -/
def hexUpperTable : List Nat := "0123456789ABCDEF".data.map Char.toNat

/-- `t[j+1] = "0123456789ABCDEF"[x]`. -/
def hexUpper (x : Nat) : Nat := hexUpperTable.getD x 0

/-- The byte-building loop of `pathEscapeRFC1738`: an escaped byte
becomes `%` (37) followed by the two uppercase hex digits of its value,
any other byte is copied. -/
def escapeLoop : List Nat → List Nat
  | [] => []
  | c :: rest =>
    (if shouldEscape c then [37, hexUpper (c / 16), hexUpper (c % 16)] else [c])
      ++ escapeLoop rest

/-- `pathEscapeRFC1738` (`lib/url.go`): count the bytes to escape; when
nothing needs escaping return the input unchanged (`spaceCount` is never
incremented, so the space-substitution branch is dead); otherwise run the
escape loop. -/
def pathEscapeRFC1738 (s : List Nat) : List Nat :=
  let spaceCount := 0
  let hexCount := (s.filter shouldEscape).length
  if spaceCount = 0 ∧ hexCount = 0 then s
  else if hexCount = 0 then s.map (fun c => if c = 32 then 43 else c)
  else escapeLoop s

/-! ## Bridging lemmas for the string model -/

theorem startsWith_iff (s pre : Chars) : startsWith s pre = true ↔ pre <+: s := by
  simp [startsWith, List.isPrefixOf_iff_prefix]

theorem endsWith_iff (s suf : Chars) : endsWith s suf = true ↔ suf <:+ s := by
  simp [endsWith, List.isPrefixOf_iff_prefix, List.reverse_prefix]

/-! ## Claim C1: the change detector -/

/-- C1: for every local/remote pair, `shouldThisReplace` returns `true`
iff the sizes or the fingerprints differ, and `(false, "")` iff both
match; when the sizes differ the reason is the size reason and the
fingerprint thunk is not consulted (the result does not depend on it), so
the fingerprint is compared only when the sizes are equal. -/
theorem detector_shouldThisReplace_correct (f : LocalF) (r : RFile) :
    ((shouldThisReplace f r).1 = true ↔ (f.size ≠ r.size ∨ f.etagF () ≠ r.etag)) ∧
    (shouldThisReplace f r = (false, []) ↔ (f.size = r.size ∧ f.etagF () = r.etag)) ∧
    ((shouldThisReplace f r).1 = false ↔ (f.size = r.size ∧ f.etagF () = r.etag)) ∧
    (f.size ≠ r.size →
      (shouldThisReplace f r).2 = reasonSize ∧
      ∀ g : Unit → Chars,
        shouldThisReplace { f with etagF := g } r = shouldThisReplace f r) := by
  by_cases hs : f.size = r.size
  · by_cases he : f.etagF () = r.etag
    · simp [shouldThisReplace, hs, he]
    · simp [shouldThisReplace, hs, he, reasonETag, reasonSize]
  · simp [shouldThisReplace, hs]

/-- Witness for C1 at a concrete pair with differing sizes: the reason is
the size reason. -/
theorem detector_shouldThisReplace_correct_witness :
    (shouldThisReplace ⟨[], [], [], 1, fun _ => "x".data⟩ ⟨2, "x".data⟩).2 = reasonSize :=
  ((detector_shouldThisReplace_correct ⟨[], [], [], 1, fun _ => "x".data⟩
    ⟨2, "x".data⟩).2.2.2 (by decide)).1

/-! ## Claims C3, C4, C10: the deletion batcher -/

theorem chunkAux_congr (size : Nat) (hsz : 1 ≤ size) :
    ∀ f g : Nat, ∀ s : List Chars, s.length ≤ f → s.length ≤ g →
      chunkAux size f s = chunkAux size g s := by
  intro f
  induction f with
  | zero =>
    intro g s h1 _
    have hs : s = [] := List.eq_nil_of_length_eq_zero (by omega)
    subst hs
    cases g <;> rfl
  | succ f ih =>
    intro g s h1 h2
    match s with
    | [] => cases g <;> rfl
    | a :: rest =>
      have hl1 : rest.length + 1 ≤ f + 1 := by simpa using h1
      have hl2 : rest.length + 1 ≤ g := by simpa using h2
      obtain ⟨g', rfl⟩ : ∃ g'', g = g'' + 1 := ⟨g - 1, by omega⟩
      simp only [chunkAux]
      congr 1
      apply ih
      · simp only [List.length_drop, List.length_cons]
        omega
      · simp only [List.length_drop, List.length_cons]
        omega

theorem chunkStrings_eq (s : List Chars) (size : Nat) (hs : s ≠ [])
    (hsz : 1 ≤ size) :
    chunkStrings s size = s.take size :: chunkStrings (s.drop size) size := by
  unfold chunkStrings
  have h0 : ¬ (size = 0) := by omega
  simp only [h0, if_false]
  match s, hs with
  | a :: rest, _ =>
    simp only [List.length_cons, chunkAux]
    congr 1
    apply chunkAux_congr size hsz
    · simp only [List.length_drop, List.length_cons]
      omega
    · exact Nat.le_refl _

/-- C10: with an empty key list or a non-positive max-delete value,
`DeleteObjects` performs no backend call, records no changed keys for CDN
invalidation, and adds nothing to the deleted or stale counters (and, the
guards being the first thing the function does, it returns without
error). -/
theorem store_DeleteObjects_noop (keys : List Chars) (maxDelete : Int)
    (h : keys = [] ∨ maxDelete ≤ 0) :
    DeleteObjects keys maxDelete = ⟨[], [], 0, 0⟩ := by
  rcases h with h | h
  · subst h; rfl
  · unfold DeleteObjects
    by_cases hk : keys.length = 0
    · simp [hk]
    · simp [hk, h]

/-- Witness for C10 at an empty key list. -/
theorem store_DeleteObjects_noop_witness :
    DeleteObjects [] 7 = ⟨[], [], 0, 0⟩ :=
  store_DeleteObjects_noop [] 7 (Or.inl rfl)

/-- C3: for 200 delete-candidates and a ceiling of 42, exactly one
backend batch of 42 keys is issued (and no further one), those 42 keys
are the ones deleted and recorded as changed, the deleted counter grows
by exactly 42 and the stale counter by exactly 158. -/
theorem store_DeleteObjects_ceiling_42 (keys : List Chars)
    (h : keys.length = 200) :
    DeleteObjects keys 42 = ⟨[keys.take 42], keys.take 42, 42, 158⟩ ∧
    (keys.take 42).length = 42 := by
  have hne : keys ≠ [] := by
    intro e
    rw [e] at h
    simp at h
  have hlen42 : (keys.take 42).length = 42 := by
    simp [List.length_take, h]
  refine ⟨?_, hlen42⟩
  unfold DeleteObjects
  have h1 : ¬ (keys.length = 0) := by omega
  have h2 : ¬ ((42 : Int) ≤ 0) := by norm_num
  have h3 : ((42 : Int) < 1000) := by norm_num
  simp only [h1, if_false, h2, h3, if_true]
  have h4 : (42 : Int).toNat = 42 := rfl
  rw [h4, chunkStrings_eq keys 42 hne (by norm_num)]
  simp only [delLoop, Int.toNat_ofNat, hlen42, h]
  norm_num

/-- Witness for C3 at a concrete list of 200 keys. -/
theorem store_DeleteObjects_ceiling_42_witness :
    DeleteObjects (List.replicate 200 "k".data) 42 =
      ⟨[List.replicate 42 "k".data], List.replicate 42 "k".data, 42, 158⟩ := by
  have h := (store_DeleteObjects_ceiling_42 (List.replicate 200 "k".data)
    (List.length_replicate 200 "k".data)).1
  rw [h, List.take_replicate]
  norm_num

theorem delLoop_nil (total md d : Int) : delLoop total md [] d = ⟨[], [], 0, 0⟩ := rfl

theorem delLoop_cons_ge (total md : Int) (c : List Chars) (rest : List (List Chars))
    (d : Int) (h : d + (c.length : Int) ≥ md) :
    delLoop total md (c :: rest) d =
      ⟨[c], c, d + (c.length : Int), total - (d + (c.length : Int))⟩ := by
  simp [delLoop, h]

theorem delLoop_cons_lt (total md : Int) (c : List Chars) (rest : List (List Chars))
    (d : Int) (h : ¬ (d + (c.length : Int) ≥ md)) :
    delLoop total md (c :: rest) d =
      ⟨c :: (delLoop total md rest (d + (c.length : Int))).calls,
       c ++ (delLoop total md rest (d + (c.length : Int))).changed,
       (d + (c.length : Int)) + (delLoop total md rest (d + (c.length : Int))).deletedStat,
       (delLoop total md rest (d + (c.length : Int))).staleStat⟩ := by
  simp [delLoop, h]

/-- C4 (amended): provided the max-delete ceiling is positive and either
at most the backend batch size of 1000 or there are at most 1000
delete-candidates, `DeleteObjects` adds amounts to the deleted and the
stale counters that sum to the number of delete-candidates. -/
theorem store_DeleteObjects_stats_partition (keys : List Chars) (maxDelete : Int)
    (h1 : 0 < maxDelete) (h2 : maxDelete ≤ 1000 ∨ (keys.length : Int) ≤ 1000) :
    (DeleteObjects keys maxDelete).deletedStat +
      (DeleteObjects keys maxDelete).staleStat = (keys.length : Int) := by
  by_cases hk : keys.length = 0
  · simp [DeleteObjects, hk]
  · have hne : keys ≠ [] := fun e => hk (by simp [e])
    have hmd : ¬ (maxDelete ≤ 0) := by omega
    unfold DeleteObjects
    simp only [hk, if_false, hmd]
    set cs := if maxDelete < 1000 then maxDelete.toNat else 1000 with hcs
    have hcs1 : 1 ≤ cs := by
      rw [hcs]
      split <;> omega
    by_cases hle : keys.length ≤ cs
    · rw [chunkStrings_eq keys cs hne hcs1, List.take_of_length_le hle,
        List.drop_eq_nil_of_le hle]
      have hnil : chunkStrings [] cs = [] := by
        unfold chunkStrings
        split <;> rfl
      rw [hnil]
      by_cases hbr : (0 : Int) + (keys.length : Int) ≥ maxDelete
      · rw [delLoop_cons_ge _ _ _ _ _ hbr]
        simp only
        omega
      · rw [delLoop_cons_lt _ _ _ _ _ hbr, delLoop_nil]
        simp only
        omega
    · have hcsmd : (cs : Int) = maxDelete := by
        rw [hcs]
        split
        · omega
        · rcases h2 with h2 | h2
          · omega
          · exfalso
            rw [hcs] at hle
            split at hle <;> omega
      rw [chunkStrings_eq keys cs hne hcs1]
      have htl : ((keys.take cs).length : Int) = maxDelete := by
        rw [List.length_take]
        omega
      have hbr : (0 : Int) + ((keys.take cs).length : Int) ≥ maxDelete := by omega
      rw [delLoop_cons_ge _ _ _ _ _ hbr]
      simp only
      omega

/-- Witness for the amended C4 at 3 candidates and ceiling 2. -/
theorem store_DeleteObjects_stats_partition_witness :
    (DeleteObjects ["a".data, "b".data, "c".data] 2).deletedStat +
      (DeleteObjects ["a".data, "b".data, "c".data] 2).staleStat = 3 :=
  store_DeleteObjects_stats_partition ["a".data, "b".data, "c".data] 2
    (by norm_num) (Or.inl (by norm_num))

set_option maxRecDepth 1000000 in
/-- Counterexample for C4 as stated: with one candidate and max-delete 0
the counters stay 0 (so deleted + stale = 0 ≠ 1), and with 1001
candidates and max-delete 1001 — two backend batches of 1000 and 1 — the
stats collector receives the cumulative count each iteration, so the
deleted counter grows by 1000 + 1001 = 2001 while stale stays 0
(2001 ≠ 1001). -/
theorem store_DeleteObjects_stats_partition_cex :
    ¬ ((DeleteObjects ["a".data] 0).deletedStat +
        (DeleteObjects ["a".data] 0).staleStat = ((["a".data] : List Chars).length : Int)) ∧
    ¬ ((DeleteObjects (List.replicate 1001 "k".data) 1001).deletedStat +
        (DeleteObjects (List.replicate 1001 "k".data) 1001).staleStat
        = ((List.replicate 1001 "k".data).length : Int)) ∧
    (DeleteObjects (List.replicate 1001 "k".data) 1001).deletedStat = 2001 ∧
    (DeleteObjects (List.replicate 1001 "k".data) 1001).staleStat = 0 := by
  refine ⟨by decide, ?_, ?_, ?_⟩
  · rw [List.length_replicate]
    have h : (DeleteObjects (List.replicate 1001 "k".data) 1001).deletedStat = 2001 ∧
        (DeleteObjects (List.replicate 1001 "k".data) 1001).staleStat = 0 := by
      constructor <;> rfl
    rw [h.1, h.2]
    norm_num
  · rfl
  · rfl

/-! ## Inventory lemmas and the planner's delete-candidate derivation -/

theorem lookupKey_eq_none (m : Inventory) (k : Chars) :
    lookupKey m k = none ↔ k ∉ m.map Prod.fst := by
  induction m with
  | nil => simp [lookupKey]
  | cons p rest ih =>
    obtain ⟨k', v⟩ := p
    by_cases h : k' = k
    · subst h
      simp [lookupKey]
    · simp only [lookupKey, h, if_false, ih, List.map_cons, List.mem_cons]
      constructor
      · intro hn hc
        rcases hc with hc | hc
        · exact h hc.symm
        · exact hn hc
      · intro hn hc
        exact hn (Or.inr hc)

theorem eraseKey_of_none (m : Inventory) (k : Chars)
    (h : lookupKey m k = none) : eraseKey m k = m := by
  induction m with
  | nil => rfl
  | cons p rest ih =>
    obtain ⟨k', v⟩ := p
    by_cases hk : k' = k
    · subst hk
      simp [lookupKey] at h
    · simp only [lookupKey, hk, if_false] at h
      simp [eraseKey, hk, ih h]

theorem eraseKey_sublist (m : Inventory) (k : Chars) :
    List.Sublist (eraseKey m k) m := by
  induction m with
  | nil => exact List.Sublist.refl _
  | cons p rest ih =>
    obtain ⟨k', v⟩ := p
    by_cases hk : k' = k
    · simp only [eraseKey, hk, if_true]
      exact List.sublist_cons_self _ _
    · simp only [eraseKey, hk, if_false]
      exact List.Sublist.cons₂ _ ih

theorem keys_eraseKey_nodup (m : Inventory) (k : Chars)
    (h : (m.map Prod.fst).Nodup) : ((eraseKey m k).map Prod.fst).Nodup :=
  h.sublist ((eraseKey_sublist m k).map Prod.fst)

theorem mem_keys_eraseKey (m : Inventory) (k k' : Chars)
    (h : (m.map Prod.fst).Nodup) :
    k' ∈ (eraseKey m k).map Prod.fst ↔ k' ∈ m.map Prod.fst ∧ ¬ (k' = k) := by
  induction m with
  | nil => simp [eraseKey]
  | cons p rest ih =>
    obtain ⟨a, v⟩ := p
    simp only [List.map_cons, List.nodup_cons] at h
    by_cases ha : a = k
    · subst ha
      simp only [eraseKey, if_true, List.map_cons, List.mem_cons]
      constructor
      · intro hm
        refine ⟨Or.inr hm, ?_⟩
        intro he
        exact h.1 (he ▸ hm)
      · rintro ⟨hm | hm, hne⟩
        · exact absurd hm hne
        · exact hm
    · simp only [eraseKey, ha, if_false, List.map_cons, List.mem_cons, ih h.2]
      constructor
      · rintro (he | ⟨hm, hne⟩)
        · exact ⟨Or.inl he, fun hk => ha (he ▸ hk)⟩
        · exact ⟨Or.inr hm, hne⟩
      · rintro ⟨he | hm, hne⟩
        · exact Or.inl he
        · exact Or.inr ⟨hm, hne⟩

theorem foldl_eraseKey_keys (cfg : Config) (locals : List LocalF) :
    ∀ m : Inventory, (m.map Prod.fst).Nodup → ∀ k : Chars,
      (k ∈ (locals.foldl (fun m f => eraseKey m (bucketKey cfg f)) m).map Prod.fst ↔
        k ∈ m.map Prod.fst ∧ ∀ f ∈ locals, ¬ (bucketKey cfg f = k)) := by
  induction locals with
  | nil => intro m _ k; simp
  | cons f rest ih =>
    intro m hnd k
    simp only [List.foldl_cons]
    rw [ih (eraseKey m (bucketKey cfg f)) (keys_eraseKey_nodup m _ hnd) k,
      mem_keys_eraseKey m _ k hnd]
    simp only [List.mem_cons]
    constructor
    · rintro ⟨⟨hm, hne⟩, hall⟩
      refine ⟨hm, ?_⟩
      rintro g (rfl | hg)
      · intro he; exact hne he.symm
      · exact hall g hg
    · rintro ⟨hm, hall⟩
      refine ⟨⟨hm, ?_⟩, ?_⟩
      · intro he; exact hall f (Or.inl rfl) he.symm
      · intro g hg; exact hall g (Or.inr hg)

theorem foldl_eraseKey_nodup (cfg : Config) (locals : List LocalF) :
    ∀ m : Inventory, (m.map Prod.fst).Nodup →
      ((locals.foldl (fun m f => eraseKey m (bucketKey cfg f)) m).map Prod.fst).Nodup := by
  induction locals with
  | nil => intro m h; exact h
  | cons f rest ih =>
    intro m h
    exact ih _ (keys_eraseKey_nodup m _ h)

theorem planStepFile_remaining (cfg : Config) (st : PlanState) (f : LocalF) :
    (planStepFile cfg st f).remaining = eraseKey st.remaining (bucketKey cfg f) := by
  cases hl : lookupKey st.remaining (bucketKey cfg f) with
  | none =>
    simp only [planStepFile, hl]
    exact (eraseKey_of_none _ _ hl).symm
  | some rf =>
    simp only [planStepFile, hl]
    split <;> first
      | rfl
      | (split <;> rfl)

theorem planFold_remaining (cfg : Config) (locals : List LocalF) :
    ∀ st : PlanState,
      (locals.foldl (planStepFile cfg) st).remaining =
        locals.foldl (fun m f => eraseKey m (bucketKey cfg f)) st.remaining := by
  induction locals with
  | nil => intro st; rfl
  | cons f rest ih =>
    intro st
    simp only [List.foldl_cons]
    rw [ih (planStepFile cfg st f), planStepFile_remaining]

/-- The number of occurrences of a key in a list of keys. -/
def countOcc (k : Chars) (l : List Chars) : Nat :=
  (l.filter (fun x => decide (x = k))).length

theorem countOcc_eq_zero (k : Chars) (l : List Chars) :
    countOcc k l = 0 ↔ ¬ (k ∈ l) := by
  induction l with
  | nil => simp [countOcc]
  | cons x xs ih =>
    by_cases hx : x = k
    · subst hx
      simp [countOcc, List.filter_cons]
    · simp only [countOcc, List.filter_cons, decide_eq_true_eq, hx, if_false,
        List.mem_cons] at ih ⊢
      rw [ih]
      constructor
      · intro hn hc
        rcases hc with hc | hc
        · exact hx hc.symm
        · exact hn hc
      · intro hn hc
        exact hn (Or.inr hc)

theorem countOcc_eq_one (k : Chars) (l : List Chars) (hnd : l.Nodup)
    (hm : k ∈ l) : countOcc k l = 1 := by
  induction l with
  | nil => cases hm
  | cons x xs ih =>
    simp only [List.nodup_cons] at hnd
    rcases List.mem_cons.mp hm with he | hm'
    · subst he
      have h0 : countOcc k xs = 0 := (countOcc_eq_zero k xs).mpr hnd.1
      simp [countOcc, List.filter_cons] at h0 ⊢
      exact h0
    · have hx : ¬ (x = k) := by
        intro he
        exact hnd.1 (he ▸ hm')
      simp only [countOcc, List.filter_cons, decide_eq_true_eq, hx, if_false]
      exact ih hnd.2 hm'

theorem shouldIgnoreRemote_eq_false (cfg : Config) (k : Chars) :
    shouldIgnoreRemote cfg k = false ↔
      ((¬ ∃ r ∈ cfg.routes, r.ignore = true ∧ r.matchRE (stripRemote cfg k) = true) ∧
        ¬ (cfg.ignore (stripRemote cfg k) = true)) := by
  cases h : cfg.routes.any (fun r => r.ignore && r.matchRE (stripRemote cfg k)) with
  | false =>
    simp only [shouldIgnoreRemote, h, Bool.false_eq_true, if_false]
    rw [List.any_eq_false] at h
    simp only [Bool.and_eq_true] at h
    constructor
    · intro hig
      refine ⟨?_, ?_⟩
      · rintro ⟨r, hr, h1, h2⟩
        exact h r hr ⟨h1, h2⟩
      · simp [hig]
    · intro hig
      simp only [Bool.not_eq_true] at hig
      exact hig.2
  | true =>
    simp only [shouldIgnoreRemote, h, if_true]
    rw [List.any_eq_true] at h
    obtain ⟨r, hr, hand⟩ := h
    simp only [Bool.and_eq_true] at hand
    constructor
    · intro he
      cases he
    · rintro ⟨hno, _⟩
      exact absurd ⟨r, hr, hand.1, hand.2⟩ hno

/-- C2: for every remote key of a duplicate-free inventory, the key is a
delete-candidate exactly once iff no local file's bucket key equals it
and no ignore rule (an ignore-flagged route or an explicit ignore
pattern, matched against the key with the bucket-path prefix stripped)
excludes it — and zero times otherwise; moreover every remote key matched
by a local file is removed from the inventory map and never deleted. -/
theorem planner_delete_candidates (cfg : Config) (locals : List LocalF)
    (remote : Inventory) (hnd : (remote.map Prod.fst).Nodup) (k : Chars)
    (hk : k ∈ remote.map Prod.fst) :
    (countOcc k (plan cfg locals remote).deletes = 1 ↔
      ((∀ f ∈ locals, ¬ (bucketKey cfg f = k)) ∧
        (¬ ∃ r ∈ cfg.routes, r.ignore = true ∧ r.matchRE (stripRemote cfg k) = true) ∧
        ¬ (cfg.ignore (stripRemote cfg k) = true))) ∧
    (countOcc k (plan cfg locals remote).deletes = 0 ↔
      ¬ ((∀ f ∈ locals, ¬ (bucketKey cfg f = k)) ∧
        (¬ ∃ r ∈ cfg.routes, r.ignore = true ∧ r.matchRE (stripRemote cfg k) = true) ∧
        ¬ (cfg.ignore (stripRemote cfg k) = true))) ∧
    ((∃ f ∈ locals, bucketKey cfg f = k) →
      ¬ (k ∈ (plan cfg locals remote).remaining.map Prod.fst) ∧
      ¬ (k ∈ (plan cfg locals remote).deletes)) := by
  have hrem : (plan cfg locals remote).remaining =
      locals.foldl (fun m f => eraseKey m (bucketKey cfg f)) remote := by
    show (locals.foldl (planStepFile cfg) ⟨[], 0, remote⟩).remaining = _
    exact planFold_remaining cfg locals ⟨[], 0, remote⟩
  have hdel : (plan cfg locals remote).deletes =
      ((plan cfg locals remote).remaining.map Prod.fst).filter
        (fun k => ! shouldIgnoreRemote cfg k) := rfl
  have hkeys : ∀ k', k' ∈ (plan cfg locals remote).remaining.map Prod.fst ↔
      (k' ∈ remote.map Prod.fst ∧ ∀ f ∈ locals, ¬ (bucketKey cfg f = k')) := by
    intro k'
    rw [hrem]
    exact foldl_eraseKey_keys cfg locals remote hnd k'
  have hndR : ((plan cfg locals remote).remaining.map Prod.fst).Nodup := by
    rw [hrem]
    exact foldl_eraseKey_nodup cfg locals remote hnd
  have hndD : (plan cfg locals remote).deletes.Nodup := by
    rw [hdel]
    exact hndR.filter _
  have hmemD : k ∈ (plan cfg locals remote).deletes ↔
      ((∀ f ∈ locals, ¬ (bucketKey cfg f = k)) ∧
        (¬ ∃ r ∈ cfg.routes, r.ignore = true ∧ r.matchRE (stripRemote cfg k) = true) ∧
        ¬ (cfg.ignore (stripRemote cfg k) = true)) := by
    rw [hdel, List.mem_filter, hkeys k]
    rw [show ((! shouldIgnoreRemote cfg k) = true ↔ shouldIgnoreRemote cfg k = false) by
      simp]
    rw [shouldIgnoreRemote_eq_false cfg k]
    constructor
    · rintro ⟨⟨_, h2⟩, h3, h4⟩
      exact ⟨h2, h3, h4⟩
    · rintro ⟨h2, h3, h4⟩
      exact ⟨⟨hk, h2⟩, h3, h4⟩
  refine ⟨?_, ?_, ?_⟩
  · constructor
    · intro hc
      rw [← hmemD]
      by_contra hnm
      rw [← countOcc_eq_zero k _] at hnm
      omega
    · intro hc
      exact countOcc_eq_one k _ hndD (hmemD.mpr hc)
  · rw [countOcc_eq_zero, hmemD]
  · intro hex
    have hnm : ¬ (k ∈ (plan cfg locals remote).remaining.map Prod.fst) := by
      rw [hkeys k]
      rintro ⟨_, hall⟩
      obtain ⟨f, hf, hbk⟩ := hex
      exact hall f hf hbk
    refine ⟨hnm, ?_⟩
    intro hmem
    rw [hdel, List.mem_filter] at hmem
    exact hnm hmem.1

/-- A configuration with empty bucket path, no routes and no ignore
patterns, used to evaluate the planner at concrete inputs. -/
def cfgPlain : Config :=
  ⟨[], false, [], fun _ => false, fun _ => false⟩

/-- A one-object remote inventory, used to evaluate the planner at
concrete inputs. -/
def remoteSingleA : Inventory := [("a".data, ⟨1, "x".data⟩)]

/-- Witness for C2: with no local files and no ignore rules, the single
remote key is a delete-candidate exactly once. -/
theorem planner_delete_candidates_witness :
    countOcc "a".data (plan cfgPlain [] remoteSingleA).deletes = 1 := by
  apply (planner_delete_candidates cfgPlain [] remoteSingleA
    (by simp [remoteSingleA]) "a".data (by simp [remoteSingleA])).1.mpr
  refine ⟨?_, ?_, ?_⟩
  · intro f hf
    cases hf
  · rintro ⟨r, hr, _⟩
    cases hr
  · simp [cfgPlain]

theorem lookupKey_mem (m : Inventory) (k : Chars) (h : k ∈ m.map Prod.fst) :
    ∃ v, lookupKey m k = some v := by
  cases hv : lookupKey m k with
  | none => exact absurd h ((lookupKey_eq_none m k).mp hv)
  | some v => exact ⟨v, rfl⟩

theorem mem_keys_eraseKey_of_ne (m : Inventory) (k k' : Chars)
    (hne : ¬ (k = k')) (h : k ∈ m.map Prod.fst) :
    k ∈ (eraseKey m k').map Prod.fst := by
  induction m with
  | nil => cases h
  | cons p rest ih =>
    obtain ⟨a, v⟩ := p
    have h' : k = a ∨ k ∈ rest.map Prod.fst := by
      simpa only [List.map_cons, List.mem_cons] using h
    rcases h' with he | hm
    · by_cases ha : a = k'
      · exact absurd (he.trans ha) hne
      · simp only [eraseKey, ha, if_false, List.map_cons, List.mem_cons]
        exact Or.inl he
    · by_cases ha : a = k'
      · simp only [eraseKey, ha, if_true]
        exact hm
      · simp only [eraseKey, ha, if_false, List.map_cons, List.mem_cons]
        exact Or.inr (ih hm)

theorem planStepFile_uploads_append (cfg : Config) (st : PlanState) (f : LocalF) :
    ∃ t, (planStepFile cfg st f).uploads = st.uploads ++ t := by
  cases hl : lookupKey st.remaining (bucketKey cfg f) with
  | none => exact ⟨[(f.keyPath, reasonNotFound)], by simp [planStepFile, hl]⟩
  | some rf =>
    by_cases hf : cfg.force = true
    · refine ⟨[(f.keyPath, reasonForce)], ?_⟩
      simp [planStepFile, hl, hf]
    · by_cases hr : (shouldThisReplace f rf).1 = true
      · refine ⟨[(f.keyPath, (shouldThisReplace f rf).2)], ?_⟩
        simp [planStepFile, hl, hf, hr]
      · refine ⟨[], ?_⟩
        simp [planStepFile, hl, hf, hr]

theorem planFold_uploads_mono (cfg : Config) (locals : List LocalF) :
    ∀ (st : PlanState) (x : Chars × Chars), x ∈ st.uploads →
      x ∈ (locals.foldl (planStepFile cfg) st).uploads := by
  induction locals with
  | nil => intro st x hx; exact hx
  | cons f rest ih =>
    intro st x hx
    simp only [List.foldl_cons]
    apply ih
    obtain ⟨t, ht⟩ := planStepFile_uploads_append cfg st f
    rw [ht]
    exact List.mem_append_left _ hx

theorem planFold_force (cfg : Config) (hf : cfg.force = true) :
    ∀ (locals : List LocalF) (st : PlanState) (f : LocalF),
      f ∈ locals → (locals.map (bucketKey cfg)).Nodup →
      bucketKey cfg f ∈ st.remaining.map Prod.fst →
      (f.keyPath, reasonForce) ∈ (locals.foldl (planStepFile cfg) st).uploads := by
  intro locals
  induction locals with
  | nil => intro st f hm; cases hm
  | cons g rest ih =>
    intro st f hmem hnd hkey
    simp only [List.map_cons, List.nodup_cons] at hnd
    simp only [List.foldl_cons]
    rcases List.mem_cons.mp hmem with rfl | hmem'
    · obtain ⟨v, hv⟩ := lookupKey_mem _ _ hkey
      apply planFold_uploads_mono
      simp [planStepFile, hv, hf]
    · apply ih (planStepFile cfg st g) f hmem' hnd.2
      rw [planStepFile_remaining]
      apply mem_keys_eraseKey_of_ne _ _ _ _ hkey
      intro he
      exact hnd.1 (he ▸ List.mem_map_of_mem (bucketKey cfg) hmem')

theorem planStepFile_etag_irrel (cfg : Config) (st : PlanState) (f : LocalF)
    (hf : cfg.force = true) (g : Unit → Chars) :
    planStepFile cfg st { f with etagF := g } = planStepFile cfg st f := by
  have hbk : bucketKey cfg { f with etagF := g } = bucketKey cfg f := rfl
  cases hl : lookupKey st.remaining (bucketKey cfg f) with
  | none => simp [planStepFile, hbk, hl]
  | some rf => simp [planStepFile, hbk, hl, hf]

theorem planFold_etag_irrel (cfg : Config) (hf : cfg.force = true)
    (h : LocalF → Unit → Chars) :
    ∀ (locals : List LocalF) (st : PlanState),
      (locals.map (fun f => { f with etagF := h f })).foldl (planStepFile cfg) st
        = locals.foldl (planStepFile cfg) st := by
  intro locals
  induction locals with
  | nil => intro st; rfl
  | cons f rest ih =>
    intro st
    simp only [List.map_cons, List.foldl_cons]
    rw [planStepFile_etag_irrel cfg st f hf (h f)]
    exact ih _

/-- C5: when the force flag is set and the local bucket keys are pairwise
distinct (as the keys produced by one walk are), every local file whose
key is present in the remote inventory is enqueued for upload with reason
`force`; and the whole plan is unchanged under any reassignment of the
fingerprint thunks — the change detector is never invoked, so no content
fingerprint is computed during planning. -/
theorem planner_force_override (cfg : Config) (locals : List LocalF)
    (remote : Inventory) (hf : cfg.force = true)
    (hnd : (locals.map (bucketKey cfg)).Nodup) :
    (∀ f ∈ locals, bucketKey cfg f ∈ remote.map Prod.fst →
      (f.keyPath, reasonForce) ∈ (plan cfg locals remote).uploads) ∧
    (∀ h : LocalF → Unit → Chars,
      plan cfg (locals.map (fun f => { f with etagF := h f })) remote
        = plan cfg locals remote) := by
  constructor
  · intro f hfm hkey
    exact planFold_force cfg hf locals ⟨[], 0, remote⟩ f hfm hnd hkey
  · intro h
    unfold plan
    rw [planFold_etag_irrel cfg hf h locals ⟨[], 0, remote⟩]

/-- A force-enabled configuration with no routes or ignore patterns. -/
def cfgForce : Config :=
  ⟨[], true, [], fun _ => false, fun _ => false⟩

/-- A concrete local file whose key is the remote key of
`remoteSingleA` but with different size and fingerprint. -/
def fileA : LocalF :=
  ⟨"/a".data, "a".data, "a".data, 5, fun _ => "y".data⟩

/-- Witness for C5 at a concrete matched pair: the file is uploaded with
reason `force`. -/
theorem planner_force_override_witness :
    ("a".data, reasonForce) ∈ (plan cfgForce [fileA] remoteSingleA).uploads := by
  apply (planner_force_override cfgForce [fileA] remoteSingleA rfl
    (by simp)).1 fileA (by simp)
  decide

theorem lookupKey_eraseKey_of_ne (m : Inventory) (k k' : Chars)
    (hne : ¬ (k = k')) :
    lookupKey (eraseKey m k') k = lookupKey m k := by
  induction m with
  | nil => rfl
  | cons p rest ih =>
    obtain ⟨a, v⟩ := p
    by_cases ha : a = k'
    · have hak : ¬ (a = k) := fun h => hne (h.symm.trans ha)
      rw [show eraseKey ((a, v) :: rest) k' = rest by simp [eraseKey, ha]]
      rw [show lookupKey ((a, v) :: rest) k = lookupKey rest k by
        simp [lookupKey, hak]]
    · rw [show eraseKey ((a, v) :: rest) k' = (a, v) :: eraseKey rest k' by
        simp [eraseKey, ha]]
      by_cases hak : a = k
      · simp [lookupKey, hak]
      · simp [lookupKey, hak, ih]

theorem planFold_all_matched (cfg : Config) (hf : cfg.force = false) :
    ∀ (locals : List LocalF) (st : PlanState),
      (st.remaining.map Prod.fst).Nodup →
      (locals.map (bucketKey cfg)).Nodup →
      (∀ f ∈ locals, ∃ rf, lookupKey st.remaining (bucketKey cfg f) = some rf ∧
        rf.size = f.size ∧ rf.etag = f.etagF ()) →
      (∀ k ∈ st.remaining.map Prod.fst, ∃ f ∈ locals, bucketKey cfg f = k) →
      locals.foldl (planStepFile cfg) st =
        ⟨st.uploads, st.skipped + locals.length, []⟩ := by
  intro locals
  induction locals with
  | nil =>
    intro st _ _ _ hcover
    obtain ⟨u, s, rem⟩ := st
    have hre : rem = [] := by
      cases hr : rem with
      | nil => rfl
      | cons p prest =>
        exfalso
        obtain ⟨g, hg, _⟩ := hcover p.1 (by
          show p.1 ∈ List.map Prod.fst rem
          rw [hr]
          exact List.mem_map_of_mem Prod.fst (List.mem_cons_self p prest))
        cases hg
    rw [hre]
    rfl
  | cons f rest ih =>
    intro st hndR hndL hmatch hcover
    obtain ⟨rf, hrf, hsz, het⟩ := hmatch f (List.mem_cons_self f rest)
    have h1 : f.size = rf.size := hsz.symm
    have h2 : f.etagF () = rf.etag := het.symm
    have hrepl : shouldThisReplace f rf = (false, []) := by
      simp [shouldThisReplace, h1, h2]
    have hstep : planStepFile cfg st f =
        ⟨st.uploads, st.skipped + 1, eraseKey st.remaining (bucketKey cfg f)⟩ := by
      simp [planStepFile, hrf, hf, hrepl]
    simp only [List.map_cons, List.nodup_cons] at hndL
    simp only [List.foldl_cons, hstep]
    rw [ih ⟨st.uploads, st.skipped + 1, eraseKey st.remaining (bucketKey cfg f)⟩
      (keys_eraseKey_nodup _ _ hndR) hndL.2 ?_ ?_]
    · simp only [List.length_cons]
      congr 1
      omega
    · intro g hg
      have hne : ¬ (bucketKey cfg g = bucketKey cfg f) := by
        intro he
        exact hndL.1 (he ▸ List.mem_map_of_mem (bucketKey cfg) hg)
      rw [show (⟨st.uploads, st.skipped + 1,
          eraseKey st.remaining (bucketKey cfg f)⟩ : PlanState).remaining =
        eraseKey st.remaining (bucketKey cfg f) from rfl]
      rw [lookupKey_eraseKey_of_ne st.remaining _ _ hne]
      exact hmatch g (List.mem_cons_of_mem f hg)
    · intro k hk
      rw [show (⟨st.uploads, st.skipped + 1,
          eraseKey st.remaining (bucketKey cfg f)⟩ : PlanState).remaining =
        eraseKey st.remaining (bucketKey cfg f) from rfl] at hk
      rw [mem_keys_eraseKey st.remaining _ k hndR] at hk
      obtain ⟨g, hg, hbk⟩ := hcover k hk.1
      rcases List.mem_cons.mp hg with rfl | hg'
      · exact absurd hbk.symm hk.2
      · exact ⟨g, hg', hbk⟩

/-- C7 (amended): when force is unset, the local bucket keys are pairwise
distinct, every local file's key is present in the (duplicate-free)
remote inventory with equal size and fingerprint, and every remote key is
some local file's key — i.e. the inventory is exactly the image of the
unchanged tree, as after a completed run — the planner skips every local
file (zero uploads) and produces no delete-candidates. -/
theorem planner_idempotent (cfg : Config) (locals : List LocalF)
    (remote : Inventory) (hf : cfg.force = false)
    (hndR : (remote.map Prod.fst).Nodup)
    (hndL : (locals.map (bucketKey cfg)).Nodup)
    (hmatch : ∀ f ∈ locals, ∃ rf, lookupKey remote (bucketKey cfg f) = some rf ∧
      rf.size = f.size ∧ rf.etag = f.etagF ())
    (hcover : ∀ k ∈ remote.map Prod.fst, ∃ f ∈ locals, bucketKey cfg f = k) :
    (plan cfg locals remote).uploads = [] ∧
    (plan cfg locals remote).skipped = locals.length ∧
    (plan cfg locals remote).deletes = [] := by
  have h := planFold_all_matched cfg hf locals ⟨[], 0, remote⟩ hndR hndL hmatch hcover
  unfold plan
  rw [h]
  simp

/-- Counterexample for C7 as stated: an extra remote object with no local
counterpart satisfies the claim's hypotheses vacuously (every local
file's key is present — there are no local files; force is unset) yet the
delete-candidate set is non-empty, so the claimed conclusion fails. -/
theorem planner_idempotent_cex :
    cfgPlain.force = false ∧
    (∀ f ∈ ([] : List LocalF), ∃ rf,
      lookupKey remoteSingleA (bucketKey cfgPlain f) = some rf ∧
      rf.size = f.size ∧ rf.etag = f.etagF ()) ∧
    ¬ ((plan cfgPlain [] remoteSingleA).deletes = []) := by
  refine ⟨rfl, ?_, ?_⟩
  · intro f hf
    cases hf
  · decide

/-- A concrete local file agreeing with `remoteSingleA` in key, size and
fingerprint. -/
def fileAMatch : LocalF :=
  ⟨"/a".data, "a".data, "a".data, 1, fun _ => "x".data⟩

/-- Witness for the amended C7 at a concrete matched tree: a second run
uploads nothing and deletes nothing. -/
theorem planner_idempotent_witness :
    (plan cfgPlain [fileAMatch] remoteSingleA).uploads = [] ∧
    (plan cfgPlain [fileAMatch] remoteSingleA).skipped = 1 ∧
    (plan cfgPlain [fileAMatch] remoteSingleA).deletes = [] := by
  have h := planner_idempotent cfgPlain [fileAMatch] remoteSingleA rfl
    (by simp [remoteSingleA]) (by simp) ?_ ?_
  · exact h
  · intro f hfm
    rw [List.mem_singleton] at hfm
    subst hfm
    exact ⟨⟨1, "x".data⟩, by decide, by decide, by decide⟩
  · intro k hk
    have : k = "a".data := by
      simpa [remoteSingleA] using hk
    subst this
    exact ⟨fileAMatch, List.mem_singleton_self _, by decide⟩

/-! ## Claim C8: ignore-route semantics -/

/-- C8: a file whose (first) matching route has the ignore flag set is
dropped by the walker before it reaches the planner, and the
corresponding remote key (the key whose stripped form is the file's
relative path) is never a delete-candidate, whatever the local stream and
the remote inventory hold. -/
theorem walker_ignore_route (cfg : Config) (f : LocalF) (r : Route) (k : Chars)
    (hfind : routesGet cfg.routes f.relPath = some r) (hig : r.ignore = true) :
    walkEmits cfg f = false ∧
    (∀ entries : List LocalF, ¬ (f ∈ walkFiles cfg entries)) ∧
    (stripRemote cfg k = f.relPath →
      ∀ (locals : List LocalF) (remote : Inventory),
        ¬ (k ∈ (plan cfg locals remote).deletes)) := by
  have hfind' : cfg.routes.find? (fun r' => r'.matchRE f.relPath) = some r := hfind
  have hematch : r.matchRE f.relPath = true := by
    simpa using List.find?_some hfind'
  have hrmem : r ∈ cfg.routes := List.mem_of_find?_eq_some hfind'
  have hemits : walkEmits cfg f = false := by
    unfold walkEmits
    rw [hfind]
    simp [hig]
  refine ⟨hemits, ?_, ?_⟩
  · intro entries hmem
    have h := (List.mem_filter.mp hmem).2
    rw [hemits] at h
    cases h
  · intro hstrip locals remote hmem
    have hsi : shouldIgnoreRemote cfg k = true := by
      unfold shouldIgnoreRemote
      have hany : cfg.routes.any
          (fun r' => r'.ignore && r'.matchRE (stripRemote cfg k)) = true := by
        rw [List.any_eq_true]
        refine ⟨r, hrmem, ?_⟩
        rw [hstrip]
        simp [hig, hematch]
      simp [hany]
    have h2 := (List.mem_filter.mp hmem).2
    rw [hsi] at h2
    cases h2

/-- A route whose pattern matches exactly `secret.txt`, flagged ignore. -/
def routeIgnoreSecret : Route :=
  ⟨fun s => decide (s = "secret.txt".data), false, true⟩

/-- A configuration carrying only the ignoring route. -/
def cfgIgnoreSecret : Config :=
  ⟨[], false, [routeIgnoreSecret], fun _ => false, fun _ => false⟩

/-- The local file the ignoring route matches. -/
def fileSecret : LocalF :=
  ⟨"/secret.txt".data, "secret.txt".data, "secret.txt".data, 0, fun _ => []⟩

/-- Witness for C8 at the concrete ignored file: the walker drops it and
its key is not a delete-candidate. -/
theorem walker_ignore_route_witness :
    walkEmits cfgIgnoreSecret fileSecret = false ∧
    ¬ ("secret.txt".data ∈
      (plan cfgIgnoreSecret []
        [("secret.txt".data, ⟨3, "z".data⟩)]).deletes) := by
  have h := walker_ignore_route cfgIgnoreSecret fileSecret routeIgnoreSecret
    "secret.txt".data rfl rfl
  exact ⟨h.1, h.2.2 (by decide) [] [("secret.txt".data, ⟨3, "z".data⟩)]⟩

/-! ## Claim C9: RFC-1738 path escaping -/

/-- The byte codes of the special characters `$-_.+!*'(),` of RFC 1738
(39 is the single-quote character). -/
def specialBytes : List Nat :=
  ['$'.toNat, '-'.toNat, '_'.toNat, '.'.toNat, '+'.toNat, '!'.toNat,
    '*'.toNat, 39, '('.toNat, ')'.toNat, ','.toNat]

/-- The byte codes of the reserved characters `/?:@=&`. -/
def reservedBytes : List Nat :=
  ['/'.toNat, '?'.toNat, ':'.toNat, '@'.toNat, '='.toNat, '&'.toNat]

theorem escapeLoop_eq_flatMap (s : List Nat) :
    escapeLoop s = s.flatMap (fun c =>
      if shouldEscape c then [37, hexUpper (c / 16), hexUpper (c % 16)]
      else [c]) := by
  induction s with
  | nil => rfl
  | cons c rest ih =>
    simp only [escapeLoop, List.flatMap_cons, ih]

theorem flatMap_esc_of_no_escape (s : List Nat)
    (h : ∀ c ∈ s, shouldEscape c = false) :
    s.flatMap (fun c =>
      if shouldEscape c then [37, hexUpper (c / 16), hexUpper (c % 16)]
      else [c]) = s := by
  induction s with
  | nil => rfl
  | cons c rest ih =>
    rw [List.flatMap_cons, h c (List.mem_cons_self c rest)]
    simp only [Bool.false_eq_true, if_false, List.singleton_append]
    rw [ih (fun c' hc' => h c' (List.mem_cons_of_mem c hc'))]

/-- C9: for every byte string, `pathEscapeRFC1738` is exactly the
per-byte map that leaves a byte alone iff `shouldEscape` rejects it and
otherwise emits `%` and two hex digits of its value; it is the identity
whenever no byte needs escaping; a byte is left unescaped exactly when it
is an ASCII alphanumeric, one of the special characters `$-_.+!*'(),`, or
a reserved character other than `?` (so `?` is percent-encoded); and
every hex digit emitted is an uppercase hex digit. -/
theorem url_pathEscapeRFC1738_correct (s : List Nat) :
    (pathEscapeRFC1738 s = s.flatMap (fun c =>
      if shouldEscape c then [37, hexUpper (c / 16), hexUpper (c % 16)]
      else [c])) ∧
    ((∀ c ∈ s, shouldEscape c = false) → pathEscapeRFC1738 s = s) ∧
    (∀ c : Nat, shouldEscape c = false ↔
      (('A'.toNat ≤ c ∧ c ≤ 'Z'.toNat) ∨ ('a'.toNat ≤ c ∧ c ≤ 'z'.toNat) ∨
        ('0'.toNat ≤ c ∧ c ≤ '9'.toNat) ∨ c ∈ specialBytes ∨
        (c ∈ reservedBytes ∧ ¬ (c = '?'.toNat)))) ∧
    (∀ i : Nat, i < 16 →
      (('0'.toNat ≤ hexUpper i ∧ hexUpper i ≤ '9'.toNat) ∨
        ('A'.toNat ≤ hexUpper i ∧ hexUpper i ≤ 'F'.toNat))) := by
  refine ⟨?_, ?_, ?_, ?_⟩
  · by_cases h0 : (s.filter shouldEscape).length = 0
    · have hnil : s.filter shouldEscape = [] := List.length_eq_zero.mp h0
      have hall : ∀ c ∈ s, shouldEscape c = false := by
        intro c hc
        have := List.filter_eq_nil_iff.mp hnil c hc
        simpa using this
      simp only [pathEscapeRFC1738, h0, and_true, if_pos rfl]
      exact (flatMap_esc_of_no_escape s hall).symm
    · simp only [pathEscapeRFC1738, h0, and_false, if_false, if_neg h0]
      exact escapeLoop_eq_flatMap s
  · intro hall
    have h0 : s.filter shouldEscape = [] := by
      rw [List.filter_eq_nil_iff]
      intro c hc
      simp [hall c hc]
    simp [pathEscapeRFC1738, h0]
  · intro c
    unfold shouldEscape
    simp only [specialBytes, reservedBytes, List.mem_cons,
      List.not_mem_nil, or_false]
    split_ifs with h1 h2 h3 <;> simp_all <;> omega
  · decide

/-- Witness for C9: a string with nothing to escape is returned
unchanged, and `?` is percent-encoded as `%3F`. -/
theorem url_pathEscapeRFC1738_correct_witness :
    pathEscapeRFC1738 ("/a-b/c.css".data.map Char.toNat)
      = "/a-b/c.css".data.map Char.toNat ∧
    pathEscapeRFC1738 ("a?".data.map Char.toNat)
      = "a%3F".data.map Char.toNat := by
  constructor
  · exact (url_pathEscapeRFC1738_correct _).2.1 (by decide)
  · rw [(url_pathEscapeRFC1738_correct ("a?".data.map Char.toNat)).1]
    decide

/-! ## Claim C6: the CDN invalidation reducer -/

theorem splitOnChar_no_sep (sep : Char) :
    ∀ l : Chars, ¬ (sep ∈ l) → splitOnChar sep l = [l] := by
  intro l
  induction l with
  | nil => intro _; rfl
  | cons c cs ih =>
    intro h
    have hc : ¬ (c = sep) := by
      intro he
      exact h (he ▸ List.mem_cons_self c cs)
    have hcs : ¬ (sep ∈ cs) := fun hm => h (List.mem_cons_of_mem c hm)
    simp only [splitOnChar, hc, if_false, ih hcs]

theorem splitOnChar_last_suffix (sep : Char) (s : Chars) (hs : s ≠ [])
    (hsep : ¬ (sep ∈ s)) :
    ∀ p : Chars, s <:+ p →
      ∃ init e, splitOnChar sep p = init ++ [e] ∧ s <:+ e := by
  intro p
  induction p with
  | nil =>
    intro h
    exact absurd (List.suffix_nil.mp h) hs
  | cons c cs ih =>
    intro h
    rcases List.suffix_cons_iff.mp h with he | hsuf
    · have hnosep : ¬ (sep ∈ c :: cs) := he ▸ hsep
      exact ⟨[], c :: cs, by
        rw [splitOnChar_no_sep sep _ hnosep]
        rfl, he ▸ List.suffix_refl s⟩
    · obtain ⟨init, e, hsplit, hse⟩ := ih hsuf
      by_cases hc : c = sep
      · refine ⟨[] :: init, e, ?_, hse⟩
        simp only [splitOnChar, hsplit, hc, if_true]
        rfl
      · cases init with
        | nil =>
          refine ⟨[], c :: e, ?_, hse.trans (List.suffix_cons c e)⟩
          simp only [splitOnChar, hsplit, hc, if_false, List.nil_append]
        | cons h0 t =>
          refine ⟨(c :: h0) :: t, e, ?_, hse⟩
          simp only [splitOnChar, hsplit, hc, if_false, List.cons_append]

theorem cleanStep_push (rooted : Bool) (stack : List Chars) (e : Chars)
    (h0 : ¬ (e = [])) (h1 : ¬ (e = ['.'])) (h2 : ¬ (e = ['.', '.'])) :
    cleanStep rooted stack e = e :: stack := by
  simp [cleanStep, h0, h1, h2]

theorem suffix_prepend (s t u : Chars) (h : s <:+ t) : s <:+ u ++ t :=
  h.trans (List.suffix_append u t)

theorem suffix_joinWith_concat (sep : Chars) (s e : Chars) (h : s <:+ e) :
    ∀ l : List Chars, s <:+ joinWith sep (l ++ [e]) := by
  intro l
  induction l with
  | nil => exact h
  | cons x t ih =>
    cases ht : t ++ [e] with
    | nil => exact absurd ht (by simp)
    | cons y t' =>
      have : joinWith sep ((x :: t) ++ [e]) = x ++ sep ++ joinWith sep (t ++ [e]) := by
        rw [List.cons_append, ht, joinWith, ← ht]
      rw [this]
      exact suffix_prepend _ _ _ ih

/-- `path.Clean` preserves a non-empty slash-free suffix (other than the
dot elements), and so does the leading-slash normalization on top of
it. -/
theorem cleanSlash_suffix (s : Chars) (hs : ¬ (s = []))
    (hsep : ¬ ('/' ∈ s)) (h1 : ¬ (s = ['.'])) (h2 : ¬ (s = ['.', '.'])) :
    ∀ p : Chars, s <:+ p → s <:+ cleanSlash p := by
  intro p hsuf
  have hp : ¬ (p = []) := by
    intro he
    exact hs (List.suffix_nil.mp (he ▸ hsuf))
  obtain ⟨init, e, hsplit, hse⟩ :=
    splitOnChar_last_suffix '/' s hs hsep p hsuf
  have he0 : ¬ (e = []) := by
    intro he
    exact hs (List.suffix_nil.mp (he ▸ hse))
  have he1 : ¬ (e = ['.']) := by
    intro he
    rw [he] at hse
    rcases List.suffix_cons_iff.mp hse with h | h
    · exact h1 h
    · exact hs (List.suffix_nil.mp h)
  have he2 : ¬ (e = ['.', '.']) := by
    intro he
    rw [he] at hse
    rcases List.suffix_cons_iff.mp hse with h | h
    · exact h2 h
    · rcases List.suffix_cons_iff.mp h with h' | h'
      · exact h1 h'
      · exact hs (List.suffix_nil.mp h')
  have hstack : ∀ rooted : Bool,
      (splitOnChar '/' p).foldl (cleanStep rooted) [] =
        e :: (init.foldl (cleanStep rooted) []) := by
    intro rooted
    rw [hsplit, List.foldl_append]
    simp only [List.foldl_cons, List.foldl_nil]
    exact cleanStep_push rooted _ e he0 he1 he2
  have hclean : s <:+ pathCleanGo p := by
    unfold pathCleanGo
    simp only [hp, if_false]
    rw [hstack (p.head? = some '/')]
    have hrev : (e :: (init.foldl (cleanStep (p.head? = some '/')) [])).reverse =
        (init.foldl (cleanStep (p.head? = some '/')) []).reverse ++ [e] := by
      simp
    rw [hrev]
    have hjoin : s <:+ joinWith ['/']
        ((init.foldl (cleanStep (p.head? = some '/')) []).reverse ++ [e]) :=
      suffix_joinWith_concat ['/'] s e hse _
    have hout : s <:+ (if (p.head? = some '/' : Prop) then ['/'] else []) ++
        joinWith ['/']
          ((init.foldl (cleanStep (p.head? = some '/')) []).reverse ++ [e]) :=
      suffix_prepend _ _ _ hjoin
    have hne : ¬ ((if (p.head? = some '/' : Prop) then ['/'] else []) ++
        joinWith ['/']
          ((init.foldl (cleanStep (p.head? = some '/')) []).reverse ++ [e])
          = ([] : Chars)) := by
      intro he
      exact hs (List.suffix_nil.mp (he ▸ hout))
    rw [if_neg hne]
    exact hout
  unfold cleanSlash
  show s <:+ (if ¬ (startsWith (pathCleanGo p) ['/'] = true)
      then '/' :: pathCleanGo p else pathCleanGo p)
  split
  · exact suffix_prepend s _ ['/'] hclean
  · exact hclean

theorem normalizeOnePath_index (p : Chars)
    (h : endsWith p ("index.html".data) = true) :
    normalizeOnePath p =
      (if ¬ (endsWith (pathDirGo (cleanSlash p)) ['/'] = true)
        then pathDirGo (cleanSlash p) ++ ['/'] else pathDirGo (cleanSlash p)) ∧
    endsWith (normalizeOnePath p) ['/'] = true := by
  have hsuf : ("index.html".data) <:+ p := (endsWith_iff _ _).mp h
  have hq : ("index.html".data) <:+ cleanSlash p :=
    cleanSlash_suffix _ (by decide) (by decide) (by decide) (by decide) p hsuf
  have hqe : endsWith (cleanSlash p) ("index.html".data) = true :=
    (endsWith_iff _ _).mpr hq
  have hnp : normalizeOnePath p =
      (if ¬ (endsWith (pathDirGo (cleanSlash p)) ['/'] = true)
        then pathDirGo (cleanSlash p) ++ ['/'] else pathDirGo (cleanSlash p)) := by
    simp only [normalizeOnePath, hqe, if_true]
  refine ⟨hnp, ?_⟩
  rw [hnp]
  split
  · exact (endsWith_iff _ _).mpr (List.suffix_append _ ['/'])
  · rename_i hd
    exact not_not.mp hd

/-- C6: the invalidation reducer returns `["/a/b1/a.css", "/a/b2/b.css"]`
unchanged (deduplicated and sorted) at threshold 3 and collapses it to
`["/a/*"]` at threshold 1; every input path ending in `index.html` is
normalized (per path) to its parent directory with a trailing slash, e.g.
`/root/index.html` to `/root/`; and with force set the result is exactly
the single root-wildcard pattern, e.g. `["/*"]` for the empty root and
`["/root/*"]` for root `root`. -/
theorem cdn_normalizeInvalidationPaths_cases :
    (normalizeInvalidationPaths "/".data 3 false
      ["/a/b1/a.css".data, "/a/b2/b.css".data]
      = ["/a/b1/a.css".data, "/a/b2/b.css".data]) ∧
    (normalizeInvalidationPaths "/".data 1 false
      ["/a/b1/a.css".data, "/a/b2/b.css".data] = ["/a/*".data]) ∧
    (∀ p : Chars, endsWith p ("index.html".data) = true →
      normalizeOnePath p =
        (if ¬ (endsWith (pathDirGo (cleanSlash p)) ['/'] = true)
          then pathDirGo (cleanSlash p) ++ ['/'] else pathDirGo (cleanSlash p)) ∧
      endsWith (normalizeOnePath p) ['/'] = true) ∧
    (normalizeInvalidationPaths "root".data 5 false ["/root/index.html".data]
      = ["/root/".data]) ∧
    (∀ (root : Chars) (threshold : Int) (paths : List Chars),
      normalizeInvalidationPaths root threshold true paths =
        [pathJoinGo [if ¬ (startsWith root ['/'] = true) then '/' :: root else root,
          ['*']]]) ∧
    (normalizeInvalidationPaths "".data 9 true ["/x".data] = ["/*".data]) ∧
    (normalizeInvalidationPaths "root".data 9 true ["/x".data] = ["/root/*".data]) := by
  refine ⟨by decide, by decide, ?_, by decide, ?_, by decide, by decide⟩
  · intro p hp
    exact normalizeOnePath_index p hp
  · intro root threshold paths
    rfl

/-- Witness for C6's universally quantified parts at concrete inputs. -/
theorem cdn_normalizeInvalidationPaths_cases_witness :
    normalizeOnePath "/root/index.html".data = "/root/".data ∧
    normalizeInvalidationPaths "x".data 2 true ["/q".data] = ["/x/*".data] := by
  constructor
  · have h := (cdn_normalizeInvalidationPaths_cases).2.2.1 "/root/index.html".data
      (by decide)
    rw [h.1]
    decide
  · rw [(cdn_normalizeInvalidationPaths_cases).2.2.2.2.1 "x".data 2 ["/q".data]]
    decide

end S3Deploy
